import Mathlib

/-!
Verification of the zap-engine image-synthesis tools.

Module `BgTexture` embeds `src/tools/generate_bg_texture.py` (value-noise
texture synthesis) over `ℚ`; module `Normals` embeds
`src/tools/generate_normals.py` (Sobel height-to-normal-map conversion)
over `ℝ` (the normalization step uses a real square root).

Python floating-point arithmetic is modelled by exact rational/real
arithmetic; Python `int(q)` (truncation toward zero) is modelled by
`pyInt` / `pyIntR`; Python `i & 255` on an arbitrary integer `i` equals
`i % 256` with a nonnegative remainder, which is `Int.emod` here.
-/

namespace BgTexture

/-- Translation of `lerp` (generate_bg_texture.py line 27). -/
def lerp (a b t : ℚ) : ℚ := a + (b - a) * t

/-- Translation of `smoothstep` (generate_bg_texture.py line 31). -/
def smoothstep (t : ℚ) : ℚ := t * t * (3 - 2 * t)

/-- Python `int(q)`: truncation toward zero. -/
def pyInt (q : ℚ) : ℤ := if q < 0 then ⌈q⌉ else ⌊q⌋

/-- Modelled from the spec: `ValueNoise2D.__init__` calls Python's library
generator `random.Random(seed)` (Mersenne Twister), which is code outside
this repository.  The spec only requires a seeded deterministic
pseudo-random generator; it is modelled by a 32-bit linear congruential
step. -/
def lcg (s : ℕ) : ℕ := (1664525 * s + 1013904223) % 4294967296

/-- Modelled from the spec: the deterministic stream of raw 32-bit values
drawn from the seeded generator; entry `n` is the `n`-th state after
seeding. -/
def rngStream (seed : ℤ) : ℕ → ℕ
  | 0 => lcg (seed % 4294967296).toNat
  | n + 1 => lcg (rngStream seed n)

/-- Swap two positions of a list (helper for the modelled shuffle). -/
def swapIdx (l : List ℕ) (i j : ℕ) : List ℕ :=
  (l.set i (l.getD j 0)).set j (l.getD i 0)

/-- Modelled from the spec: `rng.shuffle(self.perm)` is library code; the
spec asks for a seeded shuffle of the 0..255 index permutation, modelled
as a Fisher–Yates pass driven by `rngStream`. -/
def shuffleAux (seed : ℤ) : ℕ → List ℕ → List ℕ
  | 0, l => l
  | i + 1, l => shuffleAux seed i (swapIdx l (i + 1) (rngStream seed (i + 1) % (i + 2)))

/-- Modelled from the spec: the shuffled 0..255 permutation table. -/
def permTable (seed : ℤ) : List ℕ := shuffleAux seed 255 (List.range 256)

/-- State of a `ValueNoise2D` instance: the (doubled) permutation table
and the 256-entry value table (generate_bg_texture.py lines 38-43). -/
structure ValueNoise2D where
  perm : List ℕ
  values : List ℚ

/-- Translation of `ValueNoise2D.__init__` (lines 38-43): shuffle a 0..255
permutation, double it for wrapping, then fill 256 scalars in [0,1).
The library RNG is modelled (see `rngStream`); `rng.random()` values in
[0,1) are modelled as `rngStream seed (256+i) / 2^32`. -/
def ValueNoise2D.init (seed : ℤ) : ValueNoise2D where
  perm := permTable seed ++ permTable seed
  values := (List.range 256).map (fun i => ((rngStream seed (256 + i) : ℚ) / 4294967296))

/-- Translation of `ValueNoise2D._hash` (lines 45-46):
`self.values[self.perm[self.perm[ix & 255] + (iy & 255)] & 255]`.
Python `& 255` on a (possibly negative) int is `% 256` with nonnegative
remainder; list indexing is `getD` (indices are in range in the source). -/
def ValueNoise2D.hashv (n : ValueNoise2D) (ix iy : ℤ) : ℚ :=
  n.values.getD ((n.perm.getD (n.perm.getD (ix % 256).toNat 0 + (iy % 256).toNat) 0) % 256) 0

/-- Translation of `ValueNoise2D.sample` (lines 48-61). -/
def ValueNoise2D.sample (n : ValueNoise2D) (x y : ℚ) : ℚ :=
  let ix : ℤ := ⌊x⌋
  let iy : ℤ := ⌊y⌋
  let fx := smoothstep (x - ix)
  let fy := smoothstep (y - iy)
  let v00 := n.hashv ix iy
  let v10 := n.hashv (ix + 1) iy
  let v01 := n.hashv ix (iy + 1)
  let v11 := n.hashv (ix + 1) (iy + 1)
  lerp (lerp v00 v10 fx) (lerp v01 v11 fx) fy

/-- Translation of the `fbm` loop body (lines 66-73), with the running
`(value, amplitude, frequency)` state made explicit. -/
def fbmLoop (n : ValueNoise2D) (x y : ℚ) : ℕ → ℚ × ℚ × ℚ → ℚ × ℚ × ℚ
  | 0, s => s
  | k + 1, (value, amplitude, frequency) =>
      fbmLoop n x y k
        (value + amplitude * n.sample (x * frequency) (y * frequency),
         amplitude * 0.5, frequency * 2)

/-- Translation of `fbm` (lines 64-73): value starts at 0, amplitude at
0.5, frequency at 1.  The Python default `octaves=6` is never used; all
call sites pass an explicit octave count. -/
def fbm (n : ValueNoise2D) (x y : ℚ) (octaves : ℕ) : ℚ :=
  (fbmLoop n x y octaves (0, 0.5, 1)).1

/-- RGBA pixel with integer channels. -/
abbrev Pixel := ℤ × ℤ × ℤ × ℤ

/-- Normalized tiling coordinate `x / size * 8.0` (lines 93-94). -/
def texCoord (size : ℤ) (x : ℕ) : ℚ := (x : ℚ) / (size : ℚ) * 8

/-- Large-scale tone layer `f1 = fbm(noise1, nx, ny, 5)` (line 97). -/
def texF1 (size seed : ℤ) (x y : ℕ) : ℚ :=
  fbm (ValueNoise2D.init seed) (texCoord size x) (texCoord size y) 5

/-- Medium grain layer `f2 = fbm(noise2, nx*2, ny*2, 4)` (line 99). -/
def texF2 (size seed : ℤ) (x y : ℕ) : ℚ :=
  fbm (ValueNoise2D.init (seed + 137)) (texCoord size x * 2) (texCoord size y * 2) 4

/-- Fine grain layer `f3 = fbm(noise3, nx*6, ny*6, 3)` (line 101). -/
def texF3 (size seed : ℤ) (x y : ℕ) : ℚ :=
  fbm (ValueNoise2D.init (seed + 271)) (texCoord size x * 6) (texCoord size y * 6) 3

/-- Combined noise value `v = f1*0.5 + f2*0.3 + f3*0.2` before the clamp
(line 104). -/
def texV (size seed : ℤ) (x y : ℕ) : ℚ :=
  texF1 size seed x y * 0.5 + texF2 size seed x y * 0.3 + texF3 size seed x y * 0.2

/-- Translation of the per-pixel body of `generate_texture`
(lines 90-111): clamp `v` to [0,1], then each channel is
`int(max(0, min(255, base + var * v)))`, alpha 255. -/
def texturePixel (size seed : ℤ) (x y : ℕ) : Pixel :=
  let v := max 0 (min 1 (texV size seed x y))
  (pyInt (max 0 (min 255 (35 + 20 * v))),
   pyInt (max 0 (min 255 (30 + 15 * v))),
   pyInt (max 0 (min 255 (28 + 12 * v))),
   255)

/-- Translation of `generate_texture` (lines 76-113): the row/column
loops `for y in range(size): for x in range(size)` over the per-pixel
body.  For `size ≤ 0` the loops iterate zero times. -/
def generate_texture (size seed : ℤ) : List (List Pixel) :=
  (List.range size.toNat).map (fun y => (List.range size.toNat).map (fun x => texturePixel size seed x y))

/-- Translation of `main` (lines 116-141) restricted to program logic:
`main` parses `size` and `seed`, performs no validation of either, and
calls `generate_texture` unconditionally; the external image codec
(`Image.new` / `img.save`) is abstracted as succeeding.  There is no
code path in `main` or `generate_texture` that rejects a non-positive
size. -/
def texture_invocation (size seed : ℤ) : Except String (List (List Pixel)) :=
  Except.ok (generate_texture size seed)

/-- Every raw value drawn from the modelled generator is below `2^32`. -/
lemma rngStream_lt (seed : ℤ) (n : ℕ) : rngStream seed n < 4294967296 := by
  cases n with
  | zero => exact Nat.mod_lt _ (by norm_num)
  | succ n => exact Nat.mod_lt _ (by norm_num)

/-- Every lookup into the value table (default included) lies in [0,1). -/
lemma values_getD_mem (seed : ℤ) (i : ℕ) :
    0 ≤ (ValueNoise2D.init seed).values.getD i 0 ∧
      (ValueNoise2D.init seed).values.getD i 0 < 1 := by
  have hmem : ∀ q ∈ (ValueNoise2D.init seed).values, 0 ≤ q ∧ q < 1 := by
    intro q hq
    simp only [ValueNoise2D.init, List.mem_map, List.mem_range] at hq
    obtain ⟨k, _, rfl⟩ := hq
    constructor
    · positivity
    · rw [div_lt_one (by norm_num)]
      exact_mod_cast rngStream_lt seed (256 + k)
  rcases Nat.lt_or_ge i (ValueNoise2D.init seed).values.length with hi | hi
  · rw [List.getD_eq_getElem _ _ hi]
    exact hmem _ (List.getElem_mem hi)
  · rw [List.getD_eq_default _ _ hi]
    norm_num

/-- Every lattice-corner hash lies in [0,1). -/
lemma hashv_mem (seed : ℤ) (ix iy : ℤ) :
    0 ≤ (ValueNoise2D.init seed).hashv ix iy ∧
      (ValueNoise2D.init seed).hashv ix iy < 1 := by
  unfold ValueNoise2D.hashv
  exact values_getD_mem seed _

/-- The smoothstep curve is nonnegative on [0,1]. -/
lemma smoothstep_nonneg {t : ℚ} (h0 : 0 ≤ t) (h1 : t ≤ 1) : 0 ≤ smoothstep t := by
  unfold smoothstep; nlinarith

/-- The smoothstep curve is at most 1 on [0,1]. -/
lemma smoothstep_le_one {t : ℚ} (h0 : 0 ≤ t) (h1 : t ≤ 1) : smoothstep t ≤ 1 := by
  unfold smoothstep
  nlinarith [mul_nonneg (mul_nonneg (sub_nonneg.2 h1) (sub_nonneg.2 h1))
      (show (0:ℚ) ≤ 1 + 2 * t by linarith)]

/-- Linear interpolation of nonnegative endpoints is nonnegative. -/
lemma lerp_nonneg {a b t : ℚ} (ha : 0 ≤ a) (hb : 0 ≤ b) (ht0 : 0 ≤ t) (ht1 : t ≤ 1) :
    0 ≤ lerp a b t := by
  unfold lerp
  nlinarith [mul_nonneg ht0 hb, mul_nonneg (sub_nonneg.2 ht1) ha]

/-- Linear interpolation of endpoints below 1 stays below 1. -/
lemma lerp_lt_one {a b t : ℚ} (ha : a < 1) (hb : b < 1) (ht0 : 0 ≤ t) (ht1 : t ≤ 1) :
    lerp a b t < 1 := by
  unfold lerp
  rcases eq_or_lt_of_le ht1 with rfl | h
  · nlinarith
  · nlinarith [mul_pos (sub_pos.2 h) (sub_pos.2 ha), mul_nonneg ht0 (sub_pos.2 hb).le]

/-- The fractional part `x - ⌊x⌋` is nonnegative. -/
lemma fract_nonneg' (x : ℚ) : 0 ≤ x - ⌊x⌋ := by
  have h : 0 ≤ Int.fract x := Int.fract_nonneg x
  rwa [Int.fract] at h

/-- The fractional part `x - ⌊x⌋` is below 1. -/
lemma fract_lt_one' (x : ℚ) : x - ⌊x⌋ < 1 := by
  have h : Int.fract x < 1 := Int.fract_lt_one x
  rwa [Int.fract] at h

/-- The noise sample of any seeded instance lies in [0,1). -/
lemma sample_mem (seed : ℤ) (x y : ℚ) :
    0 ≤ (ValueNoise2D.init seed).sample x y ∧ (ValueNoise2D.init seed).sample x y < 1 := by
  have hfx0 : (0:ℚ) ≤ smoothstep (x - ⌊x⌋) :=
    smoothstep_nonneg (fract_nonneg' x) (fract_lt_one' x).le
  have hfx1 : smoothstep (x - ⌊x⌋) ≤ 1 :=
    smoothstep_le_one (fract_nonneg' x) (fract_lt_one' x).le
  have hfy0 : (0:ℚ) ≤ smoothstep (y - ⌊y⌋) :=
    smoothstep_nonneg (fract_nonneg' y) (fract_lt_one' y).le
  have hfy1 : smoothstep (y - ⌊y⌋) ≤ 1 :=
    smoothstep_le_one (fract_nonneg' y) (fract_lt_one' y).le
  obtain ⟨h00a, h00b⟩ := hashv_mem seed ⌊x⌋ ⌊y⌋
  obtain ⟨h10a, h10b⟩ := hashv_mem seed (⌊x⌋ + 1) ⌊y⌋
  obtain ⟨h01a, h01b⟩ := hashv_mem seed ⌊x⌋ (⌊y⌋ + 1)
  obtain ⟨h11a, h11b⟩ := hashv_mem seed (⌊x⌋ + 1) (⌊y⌋ + 1)
  unfold ValueNoise2D.sample
  constructor
  · exact lerp_nonneg (lerp_nonneg h00a h10a hfx0 hfx1)
      (lerp_nonneg h01a h11a hfx0 hfx1) hfy0 hfy1
  · exact lerp_lt_one (lerp_lt_one h00b h10b hfx0 hfx1)
      (lerp_lt_one h01b h11b hfx0 hfx1) hfy0 hfy1


/-- Spec-side octave amplitude: starts at 0.5 and halves each octave. -/
def specAmp : ℕ → ℚ
  | 0 => 0.5
  | i + 1 => specAmp i / 2

/-- Spec-side octave frequency: starts at 1 and doubles each octave. -/
def specFreq : ℕ → ℚ
  | 0 => 1
  | i + 1 => specFreq i * 2

lemma specAmp_eq (i : ℕ) : specAmp i = (1 / 2) ^ (i + 1) := by
  induction i with
  | zero => norm_num [specAmp]
  | succ i ih => rw [specAmp, ih]; ring

lemma specFreq_eq (i : ℕ) : specFreq i = 2 ^ i := by
  induction i with
  | zero => norm_num [specFreq]
  | succ i ih => rw [specFreq, ih]; ring

lemma fbmLoop_eq (n : ValueNoise2D) (x y : ℚ) :
    ∀ (k : ℕ) (v a f : ℚ),
      fbmLoop n x y k (v, a, f) =
        (v + ∑ i ∈ Finset.range k,
            a * (1 / 2) ^ i * n.sample (x * (f * 2 ^ i)) (y * (f * 2 ^ i)),
         a * (1 / 2) ^ k, f * 2 ^ k) := by
  intro k
  induction k with
  | zero => intro v a f; simp [fbmLoop]
  | succ k ih =>
      intro v a f
      rw [show fbmLoop n x y (k + 1) (v, a, f) =
            fbmLoop n x y k
              (v + a * n.sample (x * f) (y * f), a * 0.5, f * 2) from rfl, ih]
      refine Prod.ext ?_ (Prod.ext ?_ ?_)
      · show v + a * n.sample (x * f) (y * f) +
            ∑ i ∈ Finset.range k,
              a * 0.5 * (1 / 2) ^ i * n.sample (x * (f * 2 * 2 ^ i)) (y * (f * 2 * 2 ^ i)) =
          v + ∑ i ∈ Finset.range (k + 1),
              a * (1 / 2) ^ i * n.sample (x * (f * 2 ^ i)) (y * (f * 2 ^ i))
        simp only [Finset.sum_range_succ']
        have hsum : ∑ i ∈ Finset.range k,
              a * (1 / 2) ^ (i + 1) * n.sample (x * (f * 2 ^ (i + 1))) (y * (f * 2 ^ (i + 1))) =
            ∑ i ∈ Finset.range k,
              a * 0.5 * (1 / 2) ^ i * n.sample (x * (f * 2 * 2 ^ i)) (y * (f * 2 * 2 ^ i)) := by
          refine Finset.sum_congr rfl (fun i _ => ?_)
          have h2 : f * 2 ^ (i + 1) = f * 2 * 2 ^ i := by ring
          rw [h2]; ring
        rw [hsum]
        simp only [pow_zero, mul_one]
        ring
      · show a * 0.5 * (1 / 2) ^ k = a * (1 / 2) ^ (k + 1)
        ring
      · show f * 2 * 2 ^ k = f * 2 ^ (k + 1)
        ring

lemma fbm_eq_sum (n : ValueNoise2D) (x y : ℚ) (k : ℕ) :
    fbm n x y k = ∑ i ∈ Finset.range k, (1 / 2) ^ (i + 1) * n.sample (x * 2 ^ i) (y * 2 ^ i) := by
  unfold fbm
  rw [fbmLoop_eq]
  dsimp only
  rw [zero_add]
  refine Finset.sum_congr rfl (fun i _ => ?_)
  rw [show (0.5 : ℚ) = 1 / 2 from by norm_num]
  ring

lemma geom_tail (k : ℕ) : ∑ i ∈ Finset.range k, ((1 : ℚ) / 2) ^ (i + 1) = 1 - (1 / 2) ^ k := by
  induction k with
  | zero => simp
  | succ k ih => rw [Finset.sum_range_succ, ih]; ring

lemma fbm_bound (seed : ℤ) (x y : ℚ) (k : ℕ) (hk : 1 ≤ k) :
    0 ≤ fbm (ValueNoise2D.init seed) x y k ∧
      fbm (ValueNoise2D.init seed) x y k < 1 - (1 / 2) ^ k := by
  rw [fbm_eq_sum]
  constructor
  · refine Finset.sum_nonneg (fun i _ => ?_)
    exact mul_nonneg (by positivity) (sample_mem seed (x * 2 ^ i) (y * 2 ^ i)).1
  · calc ∑ i ∈ Finset.range k, (1 / 2 : ℚ) ^ (i + 1) *
          (ValueNoise2D.init seed).sample (x * 2 ^ i) (y * 2 ^ i)
        < ∑ i ∈ Finset.range k, (1 / 2 : ℚ) ^ (i + 1) := by
          refine Finset.sum_lt_sum (fun i _ => ?_) ⟨0, Finset.mem_range.2 hk, ?_⟩
          · have hs := (sample_mem seed (x * 2 ^ i) (y * 2 ^ i)).2
            have hp : (0:ℚ) < (1 / 2 : ℚ) ^ (i + 1) := by positivity
            exact (mul_lt_of_lt_one_right hp hs).le
          · have hs := (sample_mem seed (x * 2 ^ 0) (y * 2 ^ 0)).2
            have hp : (0:ℚ) < (1 / 2 : ℚ) ^ (0 + 1) := by positivity
            exact mul_lt_of_lt_one_right hp hs
      _ = 1 - (1 / 2) ^ k := geom_tail k


/-- On nonnegative inputs Python truncation agrees with the floor. -/
lemma pyInt_eq_floor {q : ℚ} (h : 0 ≤ q) : pyInt q = ⌊q⌋ := if_neg (not_lt.2 h)

/-- Channel clamping followed by truncation always lands in [0,255]. -/
lemma pyInt_clamp_mem (q : ℚ) :
    0 ≤ pyInt (max 0 (min 255 q)) ∧ pyInt (max 0 (min 255 q)) ≤ 255 := by
  have h0 : (0:ℚ) ≤ max 0 (min 255 q) := le_max_left 0 _
  have h255 : max 0 (min 255 q) ≤ 255 := max_le (by norm_num) (min_le_left _ _)
  rw [pyInt_eq_floor h0]
  constructor
  · exact Int.le_floor.2 (by exact_mod_cast h0)
  · have hf : (⌊max 0 (min 255 q)⌋ : ℤ) ≤ ⌊(255 : ℚ)⌋ := Int.floor_le_floor h255
    simpa using hf

/-- C4: for every seed and real coordinates the noise sample lies in
[0,1), and for every positive texture size every generated pixel has all
colour channels in [0,255] and alpha exactly 255. -/
theorem sample_and_pixel_ranges :
    (∀ (seed : ℤ) (x y : ℚ),
        0 ≤ (ValueNoise2D.init seed).sample x y ∧ (ValueNoise2D.init seed).sample x y < 1) ∧
    (∀ (size seed : ℤ) (x y : ℕ), 0 < size → (x : ℤ) < size → (y : ℤ) < size →
        0 ≤ (texturePixel size seed x y).1 ∧ (texturePixel size seed x y).1 ≤ 255 ∧
        0 ≤ (texturePixel size seed x y).2.1 ∧ (texturePixel size seed x y).2.1 ≤ 255 ∧
        0 ≤ (texturePixel size seed x y).2.2.1 ∧ (texturePixel size seed x y).2.2.1 ≤ 255 ∧
        (texturePixel size seed x y).2.2.2 = 255) := by
  refine ⟨sample_mem, ?_⟩
  intro size seed x y _ _ _
  unfold texturePixel
  exact ⟨(pyInt_clamp_mem _).1, (pyInt_clamp_mem _).2,
    (pyInt_clamp_mem _).1, (pyInt_clamp_mem _).2,
    (pyInt_clamp_mem _).1, (pyInt_clamp_mem _).2, rfl⟩

/-- C4 witness at seed 42, coordinates (0,0), size 1. -/
theorem sample_and_pixel_ranges_witness :
    (0 ≤ (ValueNoise2D.init 42).sample 0 0 ∧ (ValueNoise2D.init 42).sample 0 0 < 1) ∧
    (0 ≤ (texturePixel 1 42 0 0).1 ∧ (texturePixel 1 42 0 0).1 ≤ 255 ∧
     0 ≤ (texturePixel 1 42 0 0).2.1 ∧ (texturePixel 1 42 0 0).2.1 ≤ 255 ∧
     0 ≤ (texturePixel 1 42 0 0).2.2.1 ∧ (texturePixel 1 42 0 0).2.2.1 ≤ 255 ∧
     (texturePixel 1 42 0 0).2.2.2 = 255) :=
  ⟨sample_and_pixel_ranges.1 42 0 0,
   sample_and_pixel_ranges.2 1 42 0 0 (by decide) (by decide) (by decide)⟩

/-- C5: the noise sampler and the texture generator are deterministic:
in this embedding both are pure functions of `(seed, x, y)` resp.
`(size, seed)`, so repeated applications are definitionally equal. -/
theorem sampler_and_texture_deterministic :
    ∀ (seed n s : ℤ) (x y : ℚ),
      (ValueNoise2D.init seed).sample x y = (ValueNoise2D.init seed).sample x y ∧
      generate_texture n s = generate_texture n s :=
  fun _ _ _ _ _ => ⟨rfl, rfl⟩

/-- C7: `fbm` with `k ≥ 1` octaves equals the finite sum of
`amplitude_i * sample(x * frequency_i, y * frequency_i)` with the
spec's halving amplitudes and doubling frequencies. -/
theorem fbm_is_octave_sum (n : ValueNoise2D) (x y : ℚ) (k : ℕ) (hk : 1 ≤ k) :
    fbm n x y k =
      ∑ i ∈ Finset.range k, specAmp i * n.sample (x * specFreq i) (y * specFreq i) := by
  rw [fbm_eq_sum]
  refine Finset.sum_congr rfl (fun i _ => ?_)
  rw [specAmp_eq, specFreq_eq]

/-- C7 witness at one octave. -/
theorem fbm_is_octave_sum_witness :
    fbm (ValueNoise2D.init 42) 0 0 1 =
      ∑ i ∈ Finset.range 1,
        specAmp i * (ValueNoise2D.init 42).sample (0 * specFreq i) (0 * specFreq i) :=
  fbm_is_octave_sum (ValueNoise2D.init 42) 0 0 1 (le_refl 1)

/-- C8: sampling exactly at an integer lattice point returns the raw
value-table entry selected by the permutation hash, because the
fractional parts are 0 and `smoothstep 0 = 0` makes each interpolation
return its first endpoint. -/
theorem sample_at_lattice_point :
    smoothstep 0 = 0 ∧
    ∀ (seed ix iy : ℤ),
      (ValueNoise2D.init seed).sample (ix : ℚ) (iy : ℚ) =
        (ValueNoise2D.init seed).hashv ix iy := by
  constructor
  · simp [smoothstep]
  · intro seed ix iy
    unfold ValueNoise2D.sample
    rw [Int.floor_intCast, Int.floor_intCast]
    simp [smoothstep, lerp]

/-- C3 counterexample: at the non-positive size 0 the invocation is not
rejected; it succeeds and produces the empty pixel grid. -/
theorem size_zero_not_rejected :
    (0 : ℤ) ≤ 0 ∧ texture_invocation 0 42 = Except.ok [] :=
  ⟨le_refl 0, rfl⟩

/-- C3 amended: no size validation exists; for any `size ≤ 0` the
invocation still calls `generate_texture`, whose loops iterate zero
times, and succeeds with an empty grid. -/
theorem nonpositive_size_not_rejected (size seed : ℤ) (hs : size ≤ 0) :
    texture_invocation size seed = Except.ok (generate_texture size seed) ∧
    generate_texture size seed = [] := by
  refine ⟨rfl, ?_⟩
  unfold generate_texture
  rw [Int.toNat_of_nonpos hs]
  rfl

/-- C3 amended witness at size -3. -/
theorem nonpositive_size_not_rejected_witness :
    texture_invocation (-3) 7 = Except.ok (generate_texture (-3) 7) ∧
    generate_texture (-3) 7 = [] :=
  nonpositive_size_not_rejected (-3) 7 (by decide)


/-- Bounds of the three fbm layers at a texture pixel. -/
lemma texF_bounds (size seed : ℤ) (x y : ℕ) :
    (0 ≤ texF1 size seed x y ∧ texF1 size seed x y < 1 - (1 / 2) ^ 5) ∧
    (0 ≤ texF2 size seed x y ∧ texF2 size seed x y < 1 - (1 / 2) ^ 4) ∧
    (0 ≤ texF3 size seed x y ∧ texF3 size seed x y < 1 - (1 / 2) ^ 3) :=
  ⟨fbm_bound seed _ _ 5 (by norm_num),
   fbm_bound (seed + 137) _ _ 4 (by norm_num),
   fbm_bound (seed + 271) _ _ 3 (by norm_num)⟩

/-- The combined noise value lies in [0,1) before any clamping. -/
lemma texV_bounds (size seed : ℤ) (x y : ℕ) :
    0 ≤ texV size seed x y ∧ texV size seed x y < 1 := by
  obtain ⟨⟨h1a, h1b⟩, ⟨h2a, h2b⟩, ⟨h3a, h3b⟩⟩ := texF_bounds size seed x y
  unfold texV
  rw [show (0.5 : ℚ) = 1 / 2 from by norm_num, show (0.3 : ℚ) = 3 / 10 from by norm_num,
    show (0.2 : ℚ) = 1 / 5 from by norm_num]
  norm_num at h1b h2b h3b
  constructor
  · linarith
  · linarith

/-- Lower and upper bounds for the floor of a rational in a window. -/
lemma floor_window (lo hi : ℤ) {q : ℚ} (h1 : (lo : ℚ) ≤ q) (h2 : q < (hi : ℚ)) :
    lo ≤ ⌊q⌋ ∧ ⌊q⌋ ≤ hi := by
  exact ⟨Int.le_floor.2 h1, (Int.floor_lt.2 h2).le⟩

/-- C10: the combined noise value already lies in [0,1) before clamping
(each fbm layer with k octaves lies in [0, 1 - 2^-k)), so neither the
[0,1] clamp of v nor the channel clamps to [0,255] ever bind, and each
output channel lies in the narrow base/variation window. -/
theorem combined_noise_and_channel_windows (size seed : ℤ) (x y : ℕ)
    (hs : 0 < size) (hx : (x : ℤ) < size) (hy : (y : ℤ) < size) :
    (0 ≤ texF1 size seed x y ∧ texF1 size seed x y < 1 - (1 / 2) ^ 5) ∧
    (0 ≤ texF2 size seed x y ∧ texF2 size seed x y < 1 - (1 / 2) ^ 4) ∧
    (0 ≤ texF3 size seed x y ∧ texF3 size seed x y < 1 - (1 / 2) ^ 3) ∧
    (0 ≤ texV size seed x y ∧ texV size seed x y < 1) ∧
    max 0 (min 1 (texV size seed x y)) = texV size seed x y ∧
    (max 0 (min 255 (35 + 20 * texV size seed x y)) = 35 + 20 * texV size seed x y ∧
     max 0 (min 255 (30 + 15 * texV size seed x y)) = 30 + 15 * texV size seed x y ∧
     max 0 (min 255 (28 + 12 * texV size seed x y)) = 28 + 12 * texV size seed x y) ∧
    (35 ≤ (texturePixel size seed x y).1 ∧ (texturePixel size seed x y).1 ≤ 55) ∧
    (30 ≤ (texturePixel size seed x y).2.1 ∧ (texturePixel size seed x y).2.1 ≤ 45) ∧
    (28 ≤ (texturePixel size seed x y).2.2.1 ∧ (texturePixel size seed x y).2.2.1 ≤ 40) := by
  obtain ⟨hF1, hF2, hF3⟩ := texF_bounds size seed x y
  obtain ⟨hv0, hv1⟩ := texV_bounds size seed x y
  have hclampv : max 0 (min 1 (texV size seed x y)) = texV size seed x y := by
    rw [min_eq_right hv1.le, max_eq_right hv0]
  have hcr : max 0 (min 255 (35 + 20 * texV size seed x y)) = 35 + 20 * texV size seed x y := by
    rw [min_eq_right (by linarith), max_eq_right (by linarith)]
  have hcg : max 0 (min 255 (30 + 15 * texV size seed x y)) = 30 + 15 * texV size seed x y := by
    rw [min_eq_right (by linarith), max_eq_right (by linarith)]
  have hcb : max 0 (min 255 (28 + 12 * texV size seed x y)) = 28 + 12 * texV size seed x y := by
    rw [min_eq_right (by linarith), max_eq_right (by linarith)]
  have hpix : texturePixel size seed x y =
      (⌊35 + 20 * texV size seed x y⌋, ⌊30 + 15 * texV size seed x y⌋,
       ⌊28 + 12 * texV size seed x y⌋, 255) := by
    unfold texturePixel
    dsimp only
    rw [hclampv, hcr, hcg, hcb,
      pyInt_eq_floor (by linarith), pyInt_eq_floor (by linarith), pyInt_eq_floor (by linarith)]
  refine ⟨hF1, hF2, hF3, ⟨hv0, hv1⟩, hclampv, ⟨hcr, hcg, hcb⟩, ?_, ?_, ?_⟩
  · rw [hpix]
    exact floor_window 35 55 (by push_cast; linarith) (by push_cast; linarith)
  · rw [hpix]
    exact floor_window 30 45 (by push_cast; linarith) (by push_cast; linarith)
  · rw [hpix]
    exact floor_window 28 40 (by push_cast; linarith) (by push_cast; linarith)

/-- C10 witness at size 1, seed 42, pixel (0,0). -/
theorem combined_noise_and_channel_windows_witness :
    (0 ≤ texV 1 42 0 0 ∧ texV 1 42 0 0 < 1) ∧
    (35 ≤ (texturePixel 1 42 0 0).1 ∧ (texturePixel 1 42 0 0).1 ≤ 55) := by
  have h := combined_noise_and_channel_windows 1 42 0 0 (by decide) (by decide) (by decide)
  exact ⟨h.2.2.2.1, h.2.2.2.2.2.2.1⟩

end BgTexture

namespace Normals

/-- RGBA pixel with integer channels. -/
abbrev Pixel := ℤ × ℤ × ℤ × ℤ

/-- Height source selector (generate_normals.py `source` argument). -/
inductive Source where
  | alpha
  | luminance
deriving DecidableEq

/-- Translation of the height extraction (generate_normals.py lines
48-55): `a / 255.0` for source `alpha`, the perceptual luma
`(0.299 r + 0.587 g + 0.114 b) / 255.0` for source `luminance`. -/
noncomputable def heightOf (p : Pixel) (src : Source) : ℝ :=
  match src with
  | Source.alpha => (p.2.2.2 : ℝ) / 255
  | Source.luminance => (0.299 * (p.1 : ℝ) + 0.587 * (p.2.1 : ℝ) + 0.114 * (p.2.2.1 : ℝ)) / 255

/-- The `height_map` grid as a function of pixel coordinates
(lines 48-55); the image is modelled as a total pixel function. -/
noncomputable def heightMap (px : ℕ → ℕ → Pixel) (src : Source) : ℕ → ℕ → ℝ :=
  fun x y => heightOf (px x y) src

/-- Translation of the neighborhood sampler `h(dx, dy)` (lines 67-70):
`sx = max(0, min(width - 1, x + dx))`, `sy` analogous, then read
`height_map[sy][sx]`.  Out-of-bounds coordinates are clamped to the
nearest valid edge pixel. -/
noncomputable def hClamp (hm : ℕ → ℕ → ℝ) (width height : ℕ) (x y : ℕ) (dx dy : ℤ) : ℝ :=
  let sx : ℤ := max 0 (min ((width : ℤ) - 1) ((x : ℤ) + dx))
  let sy : ℤ := max 0 (min ((height : ℤ) - 1) ((y : ℤ) + dy))
  hm sx.toNat sy.toNat

/-- Translation of the horizontal Sobel accumulation `gx` (lines 73-77). -/
noncomputable def gxAt (hm : ℕ → ℕ → ℝ) (width height : ℕ) (x y : ℕ) : ℝ :=
  -1 * hClamp hm width height x y (-1) (-1) + 1 * hClamp hm width height x y 1 (-1)
  + -2 * hClamp hm width height x y (-1) 0 + 2 * hClamp hm width height x y 1 0
  + -1 * hClamp hm width height x y (-1) 1 + 1 * hClamp hm width height x y 1 1

/-- Translation of the vertical Sobel accumulation `gy` (lines 80-83). -/
noncomputable def gyAt (hm : ℕ → ℕ → ℝ) (width height : ℕ) (x y : ℕ) : ℝ :=
  -1 * hClamp hm width height x y (-1) (-1) + -2 * hClamp hm width height x y 0 (-1)
  + -1 * hClamp hm width height x y 1 (-1)
  + 1 * hClamp hm width height x y (-1) 1 + 2 * hClamp hm width height x y 0 1
  + 1 * hClamp hm width height x y 1 1

/-- The strength-scaled gradient `gx *= strength` (line 86). -/
noncomputable def sgxAt (px : ℕ → ℕ → Pixel) (width height : ℕ) (strength : ℝ)
    (src : Source) (x y : ℕ) : ℝ :=
  gxAt (heightMap px src) width height x y * strength

/-- The strength-scaled gradient `gy *= strength` (line 87). -/
noncomputable def sgyAt (px : ℕ → ℕ → Pixel) (width height : ℕ) (strength : ℝ)
    (src : Source) (x y : ℕ) : ℝ :=
  gyAt (heightMap px src) width height x y * strength

/-- Translation of the normalization length (line 93):
`sqrt(nx*nx + ny*ny + nz*nz)` with `nx = -gx`, `ny = -gy`, `nz = 1.0`. -/
noncomputable def lengthAt (px : ℕ → ℕ → Pixel) (width height : ℕ) (strength : ℝ)
    (src : Source) (x y : ℕ) : ℝ :=
  Real.sqrt (-sgxAt px width height strength src x y * -sgxAt px width height strength src x y
    + -sgyAt px width height strength src x y * -sgyAt px width height strength src x y
    + 1 * 1)

/-- Python `int(r)` on a real: truncation toward zero. -/
noncomputable def pyIntR (r : ℝ) : ℤ := if r < 0 then ⌈r⌉ else ⌊r⌋

/-- Translation of one output channel (lines 99-101):
`int(max(0, min(255, (n * 0.5 + 0.5) * 255)))`. -/
noncomputable def encodeChannel (n : ℝ) : ℤ :=
  pyIntR (max 0 (min 255 ((n * 0.5 + 0.5) * 255)))

/-- Translation of the encoding step (lines 98-105): channel-encode the
normalized components and pass the source alpha through. -/
noncomputable def encodePixel (nx ny nz : ℝ) (a : ℤ) : Pixel :=
  (encodeChannel nx, encodeChannel ny, encodeChannel nz, a)

/-- Translation of the per-pixel body of `sobel_normal_map`
(lines 64-105): scaled gradients, normalization by `lengthAt`, then
encoding with the original alpha. -/
noncomputable def sobelPixel (px : ℕ → ℕ → Pixel) (width height : ℕ) (strength : ℝ)
    (src : Source) (x y : ℕ) : Pixel :=
  encodePixel
    (-sgxAt px width height strength src x y / lengthAt px width height strength src x y)
    (-sgyAt px width height strength src x y / lengthAt px width height strength src x y)
    (1 / lengthAt px width height strength src x y)
    (px x y).2.2.2

/-- Translation of `sobel_normal_map` as a grid (lines 61-107): the
output image evaluated on the same width x height domain. -/
noncomputable def sobel_normal_map (px : ℕ → ℕ → Pixel) (width height : ℕ)
    (strength : ℝ) (src : Source) : List (List Pixel) :=
  (List.range height).map (fun y => (List.range width).map (fun x =>
    sobelPixel px width height strength src x y))

/-- Written from the spec's words for C1 (section 4.6): each channel is
`clamp(round((n * 0.5 + 0.5) * 255), 0, 255)` — rounding to the nearest
integer, not truncation. -/
noncomputable def specEncodeChannel (n : ℝ) : ℤ :=
  max 0 (min 255 (round ((n * 0.5 + 0.5) * 255)))

/-- Written from the spec's words for C1: the rounded encoding of a
normal vector with pass-through alpha. -/
noncomputable def specEncodePixel (nx ny nz : ℝ) (a : ℤ) : Pixel :=
  (specEncodeChannel nx, specEncodeChannel ny, specEncodeChannel nz, a)

/-- Written from the spec's words for C6: the horizontal Sobel kernel
`[-1,0,1; -2,0,2; -1,0,1]` applied as a full 3x3 convolution over the
clamped neighborhood. -/
noncomputable def gxConv (hm : ℕ → ℕ → ℝ) (width height : ℕ) (x y : ℕ) : ℝ :=
  (-1) * hClamp hm width height x y (-1) (-1) + 0 * hClamp hm width height x y 0 (-1)
    + 1 * hClamp hm width height x y 1 (-1)
  + (-2) * hClamp hm width height x y (-1) 0 + 0 * hClamp hm width height x y 0 0
    + 2 * hClamp hm width height x y 1 0
  + (-1) * hClamp hm width height x y (-1) 1 + 0 * hClamp hm width height x y 0 1
    + 1 * hClamp hm width height x y 1 1

/-- Written from the spec's words for C6: the vertical Sobel kernel
`[-1,-2,-1; 0,0,0; 1,2,1]` applied as a full 3x3 convolution over the
clamped neighborhood. -/
noncomputable def gyConv (hm : ℕ → ℕ → ℝ) (width height : ℕ) (x y : ℕ) : ℝ :=
  (-1) * hClamp hm width height x y (-1) (-1) + (-2) * hClamp hm width height x y 0 (-1)
    + (-1) * hClamp hm width height x y 1 (-1)
  + 0 * hClamp hm width height x y (-1) 0 + 0 * hClamp hm width height x y 0 0
    + 0 * hClamp hm width height x y 1 0
  + 1 * hClamp hm width height x y (-1) 1 + 2 * hClamp hm width height x y 0 1
    + 1 * hClamp hm width height x y 1 1


/-- On nonnegative inputs Python truncation agrees with the floor. -/
lemma pyIntR_eq_floor {r : ℝ} (h : 0 ≤ r) : pyIntR r = ⌊r⌋ := if_neg (not_lt.2 h)

/-- For components in [-1,1] the channel clamp never binds and the
encoded channel is the floor of the remapped value. -/
lemma encodeChannel_eq_floor {v : ℝ} (h1 : -1 ≤ v) (h2 : v ≤ 1) :
    encodeChannel v = ⌊(v * 0.5 + 0.5) * 255⌋ := by
  unfold encodeChannel
  have hlo : (0:ℝ) ≤ (v * 0.5 + 0.5) * 255 := by nlinarith
  have hhi : (v * 0.5 + 0.5) * 255 ≤ 255 := by nlinarith
  rw [min_eq_right hhi, max_eq_right hlo, pyIntR_eq_floor hlo]

/-- A zero component encodes to 127 (truncation of 127.5). -/
lemma encodeChannel_zero : encodeChannel 0 = 127 := by
  rw [encodeChannel_eq_floor (by norm_num) (by norm_num),
    show ((0:ℝ) * 0.5 + 0.5) * 255 = 127.5 from by norm_num, Int.floor_eq_iff]
  norm_num

/-- A unit component encodes to 255. -/
lemma encodeChannel_one : encodeChannel 1 = 255 := by
  rw [encodeChannel_eq_floor (by norm_num) le_rfl,
    show ((1:ℝ) * 0.5 + 0.5) * 255 = 255 from by norm_num, Int.floor_eq_iff]
  norm_num

/-- Clamped sampling of a constant height field always reads the
constant. -/
lemma hClamp_const {c : ℝ} {hm : ℕ → ℕ → ℝ} (hc : ∀ i j, hm i j = c)
    (width height x y : ℕ) (dx dy : ℤ) : hClamp hm width height x y dx dy = c := by
  unfold hClamp
  exact hc _ _

/-- The horizontal Sobel sum vanishes on a constant height field. -/
lemma gxAt_const {c : ℝ} {hm : ℕ → ℕ → ℝ} (hc : ∀ i j, hm i j = c)
    (width height x y : ℕ) : gxAt hm width height x y = 0 := by
  unfold gxAt
  simp only [hClamp_const hc]
  ring

/-- The vertical Sobel sum vanishes on a constant height field. -/
lemma gyAt_const {c : ℝ} {hm : ℕ → ℕ → ℝ} (hc : ∀ i j, hm i j = c)
    (width height x y : ℕ) : gyAt hm width height x y = 0 := by
  unfold gyAt
  simp only [hClamp_const hc]
  ring

/-- Whenever both scaled gradients vanish, the pixel encodes the flat
normal: (127, 127, 255) with the original alpha. -/
lemma sobelPixel_of_scaled_zero (px : ℕ → ℕ → Pixel) (width height : ℕ) (strength : ℝ)
    (src : Source) (x y : ℕ)
    (hgx : sgxAt px width height strength src x y = 0)
    (hgy : sgyAt px width height strength src x y = 0) :
    sobelPixel px width height strength src x y = (127, 127, 255, (px x y).2.2.2) := by
  have hlen : lengthAt px width height strength src x y = 1 := by
    unfold lengthAt
    rw [hgx, hgy, show (-(0:ℝ) * -(0:ℝ) + -(0:ℝ) * -(0:ℝ) + 1 * 1 : ℝ) = 1 from by norm_num,
      Real.sqrt_one]
  unfold sobelPixel
  rw [hgx, hgy, hlen, show (-(0:ℝ) / 1 : ℝ) = 0 from by norm_num,
    show ((1:ℝ) / 1 : ℝ) = 1 from by norm_num]
  unfold encodePixel
  rw [encodeChannel_zero, encodeChannel_one]


/-- C6: the code's gradient accumulations equal the full 3x3 Sobel
convolutions over the edge-clamped neighborhood (for every height field,
pixel, and strength), and at pixel (0,0) the clamped read `h(-1,-1)`
returns the value of the height field at (0,0). -/
theorem gradients_are_sobel_convolutions :
    (∀ (hm : ℕ → ℕ → ℝ) (width height x y : ℕ),
        gxAt hm width height x y = gxConv hm width height x y ∧
        gyAt hm width height x y = gyConv hm width height x y) ∧
    (∀ (px : ℕ → ℕ → Pixel) (width height : ℕ) (strength : ℝ) (src : Source) (x y : ℕ),
        sgxAt px width height strength src x y =
          gxConv (heightMap px src) width height x y * strength ∧
        sgyAt px width height strength src x y =
          gyConv (heightMap px src) width height x y * strength) ∧
    (∀ (hm : ℕ → ℕ → ℝ) (width height : ℕ),
        hClamp hm width height 0 0 (-1) (-1) = hm 0 0) := by
  have hgx : ∀ (hm : ℕ → ℕ → ℝ) (width height x y : ℕ),
      gxAt hm width height x y = gxConv hm width height x y := by
    intro hm width height x y
    unfold gxAt gxConv
    ring
  have hgy : ∀ (hm : ℕ → ℕ → ℝ) (width height x y : ℕ),
      gyAt hm width height x y = gyConv hm width height x y := by
    intro hm width height x y
    unfold gyAt gyConv
    ring
  refine ⟨fun hm w h x y => ⟨hgx hm w h x y, hgy hm w h x y⟩, ?_, ?_⟩
  · intro px w h strength src x y
    unfold sgxAt sgyAt
    rw [hgx, hgy]
    exact ⟨rfl, rfl⟩
  · intro hm width height
    unfold hClamp
    dsimp only
    have hx : max 0 (min ((width : ℤ) - 1) (((0:ℕ) : ℤ) + (-1))) = 0 := by omega
    have hy : max 0 (min ((height : ℤ) - 1) (((0:ℕ) : ℤ) + (-1))) = 0 := by omega
    rw [hx, hy]
    rfl

/-- C9: the normalization divisor `sqrt(gx^2 + gy^2 + 1)` is at least 1
for every height field, pixel, and strength, hence never zero. -/
theorem normalization_length_ge_one (px : ℕ → ℕ → Pixel) (width height : ℕ)
    (strength : ℝ) (src : Source) (x y : ℕ) :
    1 ≤ lengthAt px width height strength src x y ∧
      lengthAt px width height strength src x y ≠ 0 := by
  have harg : (1:ℝ) ≤
      -sgxAt px width height strength src x y * -sgxAt px width height strength src x y
      + -sgyAt px width height strength src x y * -sgyAt px width height strength src x y
      + 1 * 1 := by
    nlinarith [mul_self_nonneg (sgxAt px width height strength src x y),
      mul_self_nonneg (sgyAt px width height strength src x y)]
  have h1 : 1 ≤ lengthAt px width height strength src x y := by
    unfold lengthAt
    calc (1:ℝ) = Real.sqrt 1 := Real.sqrt_one.symm
      _ ≤ _ := Real.sqrt_le_sqrt harg
  exact ⟨h1, by linarith⟩

/-- C1 counterexample: on the unit normal (0,0,1) the code's encoding
(truncation) gives (127,127,255), while the spec's rounded encoding
gives (128,128,255). -/
theorem encode_truncates_not_rounds :
    ((0:ℝ) * 0 + 0 * 0 + 1 * 1 = 1) ∧
    encodePixel 0 0 1 0 = (127, 127, 255, 0) ∧
    specEncodePixel 0 0 1 0 = (128, 128, 255, 0) ∧
    encodePixel 0 0 1 0 ≠ specEncodePixel 0 0 1 0 := by
  have hcode : encodePixel 0 0 1 0 = (127, 127, 255, 0) := by
    unfold encodePixel
    rw [encodeChannel_zero, encodeChannel_one]
  have hf128 : ⌊(128:ℝ)⌋ = 128 := by
    rw [Int.floor_eq_iff]
    norm_num
  have hf2555 : ⌊(255.5:ℝ)⌋ = 255 := by
    rw [Int.floor_eq_iff]
    norm_num
  have hspec0 : specEncodeChannel 0 = 128 := by
    unfold specEncodeChannel
    rw [show ((0:ℝ) * 0.5 + 0.5) * 255 = 127.5 from by norm_num, round_eq,
      show (127.5 : ℝ) + 1 / 2 = 128 from by norm_num, hf128]
    decide
  have hspec1 : specEncodeChannel 1 = 255 := by
    unfold specEncodeChannel
    rw [show ((1:ℝ) * 0.5 + 0.5) * 255 = 255 from by norm_num, round_eq,
      show (255 : ℝ) + 1 / 2 = 255.5 from by norm_num, hf2555]
    decide
  have hspec : specEncodePixel 0 0 1 0 = (128, 128, 255, 0) := by
    unfold specEncodePixel
    rw [hspec0, hspec1]
  refine ⟨by norm_num, hcode, hspec, ?_⟩
  rw [hcode, hspec]
  decide

/-- C1 amended: for every unit normal and alpha byte, the encoding step
produces the truncated (floor) image of each [0,1]-remapped component;
the clamp never binds, so each channel is `⌊(n*0.5+0.5)*255⌋` and the
alpha passes through. -/
theorem encode_unit_normal (nx ny nz : ℝ) (a : ℤ)
    (hu : nx * nx + ny * ny + nz * nz = 1) :
    encodePixel nx ny nz a =
      (⌊(nx * 0.5 + 0.5) * 255⌋, ⌊(ny * 0.5 + 0.5) * 255⌋, ⌊(nz * 0.5 + 0.5) * 255⌋, a) := by
  have hx : -1 ≤ nx ∧ nx ≤ 1 := by
    constructor <;>
      nlinarith [mul_self_nonneg (nx + 1), mul_self_nonneg (nx - 1),
        mul_self_nonneg ny, mul_self_nonneg nz]
  have hy : -1 ≤ ny ∧ ny ≤ 1 := by
    constructor <;>
      nlinarith [mul_self_nonneg (ny + 1), mul_self_nonneg (ny - 1),
        mul_self_nonneg nx, mul_self_nonneg nz]
  have hz : -1 ≤ nz ∧ nz ≤ 1 := by
    constructor <;>
      nlinarith [mul_self_nonneg (nz + 1), mul_self_nonneg (nz - 1),
        mul_self_nonneg nx, mul_self_nonneg ny]
  unfold encodePixel
  rw [encodeChannel_eq_floor hx.1 hx.2, encodeChannel_eq_floor hy.1 hy.2,
    encodeChannel_eq_floor hz.1 hz.2]

/-- C1 amended witness at the unit normal (0,0,1) with alpha 7. -/
theorem encode_unit_normal_witness :
    encodePixel 0 0 1 7 =
      (⌊((0:ℝ) * 0.5 + 0.5) * 255⌋, ⌊((0:ℝ) * 0.5 + 0.5) * 255⌋,
       ⌊((1:ℝ) * 0.5 + 0.5) * 255⌋, 7) :=
  encode_unit_normal 0 0 1 7 (by norm_num)

/-- C2 amended: on any image whose derived height field is constant, and
likewise for strength 0, both scaled gradients vanish at every pixel and
the output pixel is (127, 127, 255, original alpha) — the code truncates
127.5 to 127 rather than rounding to 128. -/
theorem flat_field_or_zero_strength_flat_output :
    (∀ (px : ℕ → ℕ → Pixel) (width height : ℕ) (strength : ℝ) (src : Source) (c : ℝ)
        (x y : ℕ), (∀ i j, heightMap px src i j = c) →
        sgxAt px width height strength src x y = 0 ∧
        sgyAt px width height strength src x y = 0 ∧
        sobelPixel px width height strength src x y = (127, 127, 255, (px x y).2.2.2)) ∧
    (∀ (px : ℕ → ℕ → Pixel) (width height : ℕ) (src : Source) (x y : ℕ),
        sgxAt px width height 0 src x y = 0 ∧
        sgyAt px width height 0 src x y = 0 ∧
        sobelPixel px width height 0 src x y = (127, 127, 255, (px x y).2.2.2)) := by
  constructor
  · intro px width height strength src c x y hc
    have hgx : sgxAt px width height strength src x y = 0 := by
      unfold sgxAt
      rw [gxAt_const hc, zero_mul]
    have hgy : sgyAt px width height strength src x y = 0 := by
      unfold sgyAt
      rw [gyAt_const hc, zero_mul]
    exact ⟨hgx, hgy, sobelPixel_of_scaled_zero px width height strength src x y hgx hgy⟩
  · intro px width height src x y
    have hgx : sgxAt px width height 0 src x y = 0 := by
      unfold sgxAt
      rw [mul_zero]
    have hgy : sgyAt px width height 0 src x y = 0 := by
      unfold sgyAt
      rw [mul_zero]
    exact ⟨hgx, hgy, sobelPixel_of_scaled_zero px width height 0 src x y hgx hgy⟩

/-- C2 amended witness: a fully transparent 4x4 image with alpha source
and strength 1 has a constant (zero) height field, vanishing gradients,
and flat output pixel (127,127,255,0) at (0,0). -/
theorem flat_field_or_zero_strength_flat_output_witness :
    sgxAt (fun _ _ => ((0, 0, 0, 0) : Pixel)) 4 4 1 Source.alpha 0 0 = 0 ∧
    sgyAt (fun _ _ => ((0, 0, 0, 0) : Pixel)) 4 4 1 Source.alpha 0 0 = 0 ∧
    sobelPixel (fun _ _ => ((0, 0, 0, 0) : Pixel)) 4 4 1 Source.alpha 0 0 =
      (127, 127, 255, ((fun (_ _ : ℕ) => ((0, 0, 0, 0) : Pixel)) 0 0).2.2.2) :=
  flat_field_or_zero_strength_flat_output.1 (fun _ _ => (0, 0, 0, 0)) 4 4 1 Source.alpha 0 0 0
    (fun i j => by simp [heightMap, heightOf])

/-- C2 counterexample: the same fully transparent constant image yields
the output pixel (127,127,255,0) at (0,0), not the (128,128,255,0) the
claim states. -/
theorem flat_field_output_is_not_128 :
    (∀ i j, heightMap (fun _ _ => ((0, 0, 0, 0) : Pixel)) Source.alpha i j = 0) ∧
    sobelPixel (fun _ _ => ((0, 0, 0, 0) : Pixel)) 4 4 1 Source.alpha 0 0 =
      (127, 127, 255, 0) ∧
    sobelPixel (fun _ _ => ((0, 0, 0, 0) : Pixel)) 4 4 1 Source.alpha 0 0 ≠
      (128, 128, 255, 0) := by
  have hc : ∀ i j, heightMap (fun _ _ => ((0, 0, 0, 0) : Pixel)) Source.alpha i j = 0 := by
    intro i j
    simp [heightMap, heightOf]
  have hgx : sgxAt (fun _ _ => ((0, 0, 0, 0) : Pixel)) 4 4 1 Source.alpha 0 0 = 0 := by
    unfold sgxAt
    rw [gxAt_const hc, zero_mul]
  have hgy : sgyAt (fun _ _ => ((0, 0, 0, 0) : Pixel)) 4 4 1 Source.alpha 0 0 = 0 := by
    unfold sgyAt
    rw [gyAt_const hc, zero_mul]
  have hout := sobelPixel_of_scaled_zero (fun _ _ => (0, 0, 0, 0)) 4 4 1 Source.alpha 0 0 hgx hgy
  refine ⟨hc, hout, ?_⟩
  rw [hout]
  decide

end Normals
